import Mathlib

/-!
Verification development for the denss profile tools.

This file gives a shallow embedding of the computational core of
`src/bin/denss/rho2dat.py` and `src/bin/denss/regrid.py`:

* the spherical bin scheme (`np.searchsorted` / `np.bincount` based shell
  labelling of frequency magnitudes, bin-edge construction, per-shell
  weighted means),
* the grid loading geometry (odd-size trim, stride sampling, voxel size),
* the resolution controller (target-spacing branch),
* the forward transform floor rule (`F[F.real==0] = 1e-16`),
* the output-profile truncation and the uncertainty column,
* the regrid row filtering, truncation and output-path logic.

The Python source computes with IEEE floating point; the embedding models
real arithmetic exactly (a linear ordered field, instantiated at `ℚ` and
`ℝ`), which is the standard idealisation for these structural claims.
Where non-finite values matter (NaN rows in profiles, the NaN produced by
a zero-count shell mean), they are modelled explicitly (`PyFloat`,
`Option`-valued means).
-/

namespace Denss

section BinScheme

variable {α : Type} [LinearOrderedField α]

/-- Largest element of a list, as in `np.max(arr)`; the empty-list value 0 is
never used (numpy raises on an empty array). -/
def npMax : List α → α
  | [] => 0
  | h :: t => t.foldl max h

/-- Smallest element of a list, as in `np.min(arr)`; the empty-list value 0 is
never used (numpy raises on an empty array). -/
def npMin : List α → α
  | [] => 0
  | h :: t => t.foldl min h

/-- Embedding of `np.min(qr[qr>0])` from rho2dat.py: the minimum strictly
positive magnitude present on the grid. -/
def minPosMag (l : List α) : α := npMin (l.filter (fun v => decide (0 < v)))

/-- The literal `1e-8` subtracted in `qstep = np.min(qr[qr>0]) - 1e-8`. -/
def epsShell : α := 1 / 100000000

/-- Embedding of `qstep = np.min(qr[qr>0]) - 1e-8` from rho2dat.py. -/
def qstepOf (l : List α) : α := minPosMag l - epsShell

variable [FloorRing α]

/-- Python `int()` applied to a real value: truncation toward zero. -/
def pyInt (x : α) : ℤ := if x < 0 then ⌈x⌉ else ⌊x⌋

/-- Embedding of `nbins = int(qmax/qstep)` from rho2dat.py. -/
def nbinsOf (l : List α) : ℤ := pyInt (npMax l / qstepOf l)

/-- Embedding of `np.linspace(a, b, num)`: `num` equally spaced samples from
`a` to `b` inclusive (exact real arithmetic). -/
def linspace (a b : α) (num : ℕ) : List α :=
  if num ≤ 1 then [a]
  else (List.range num).map (fun i : ℕ => a + (b - a) * (i : α) / ((num : α) - 1))

/-- Embedding of `qbins = np.linspace(0, nbins*qstep, nbins+1)` from
rho2dat.py.  A negative `nbins` is clamped to 0 samples + 1 here; numpy
would raise in that case, and every theorem below that uses `qbinsOf`
restricts to the positive-width regime except where the divergence is the
point. -/
def qbinsOf (l : List α) : List α :=
  linspace 0 ((nbinsOf l : α) * qstepOf l) ((nbinsOf l).toNat + 1)

/-- Embedding of `np.searchsorted(edges, v, "right")` for a sorted `edges`:
the insertion index keeping the list sorted with equal values placed to the
left of the insertion point, i.e. the number of edges `≤ v`. -/
def searchsortedRight (edges : List α) (v : α) : ℕ :=
  edges.countP (fun e => decide (e ≤ v))

/-- Shell label of one magnitude value: `np.searchsorted(qbins, v, "right") - 1`. -/
def labelOf (l : List α) (v : α) : ℤ := (searchsortedRight (qbinsOf l) v : ℤ) - 1

/-- Embedding of
`qbin_labels = np.searchsorted(qbins, qr, "right"); qbin_labels -= 1`
from rho2dat.py: the per-cell shell label. -/
def qbinLabelsOf (l : List α) : List ℤ := l.map (labelOf l)

/-- Embedding of `np.bincount(labels)`: occurrence counts for
`0, 1, ..., max(labels)`; empty input gives an empty count list. -/
def bincount (labels : List ℤ) : List ℕ :=
  match labels with
  | [] => []
  | _ => (List.range ((labels.foldr max 0).toNat + 1)).map (fun k : ℕ => labels.count (k : ℤ))

/-- Embedding of `xcount = np.bincount(qblravel)` from rho2dat.py. -/
def xcountOf (l : List α) : List ℕ := bincount (qbinLabelsOf l)

/-- Sum of the values whose label equals `k`, as in
`np.bincount(labels, weights=vals)[k]`. -/
def binWeightedSum (vals : List α) (labels : List ℤ) (k : ℕ) : α :=
  (((labels.zip vals).filter (fun p => decide (p.1 = (k : ℤ)))).map (fun p => p.2)).sum

/-- Modelled from the spec: `saxstats.saxstats.mybinmean` is not under
`src/`; the spec defines it as the count-weighted mean per shell, the sum of
the values in a shell divided by the shell count.  A zero-count shell is
`0/0 = NaN` in floating point, modelled here as `none`. -/
def mybinmean (vals : List α) (labels : List ℤ) (xcount : List ℕ) : List (Option α) :=
  (List.range xcount.length).map (fun k =>
    if xcount.getD k 0 = 0 then none
    else some (binWeightedSum vals labels k / (xcount.getD k 0 : α)))

/-- Embedding of `qbinsc = saxs.mybinmean(qr.ravel(), qblravel, xcount)`:
the representative (count-weighted mean) magnitude per shell. -/
def qbinscOf (l : List α) : List (Option α) := mybinmean l (qbinLabelsOf l) (xcountOf l)

/-- Proof-side abbreviation: the magnitudes of the cells labelled `k`.
`binWeightedSum` and the shell counts are shown below to aggregate exactly
this sublist. -/
def shellList (l : List α) (k : ℕ) : List α :=
  l.filter (fun v => decide (labelOf l v = (k : ℤ)))

/-- Comparison of a shell mean against a bound, as in `qbinsc < qmax_to_use`:
a NaN entry (zero-count shell, modelled `none`) compares false. -/
def oLt (x : Option α) (b : α) : Bool :=
  match x with
  | some v => decide (v < b)
  | none => false

/-- Embedding of the truncation
`qbinsc_to_use = qbinsc[qbinsc < qmax_to_use]; Imean_to_use = Imean[qbinsc < qmax_to_use]`
from rho2dat.py, keeping the two columns paired.  Entries that pass the mask
are necessarily `some`, so the final `filterMap` drops nothing. -/
def truncPairs (qbinsc Imean : List (Option α)) (b : α) : List (α × α) :=
  ((qbinsc.zip Imean).filter (fun p => oLt p.1 b)).filterMap
    (fun p => p.1.bind (fun q => p.2.map (fun I => (q, I))))

/-- Embedding of `Iq = np.vstack((qbinsc, Imean, Imean*0 + Imean[0]*.03)).T`
from rho2dat.py, applied after the truncation: each output row is
(frequency, intensity, first-intensity times 0.03).  An empty truncated
profile makes `Imean[0]` raise IndexError, modelled as `none`. -/
def outputIq (qbinsc Imean : List (Option α)) (b : α) : Option (List (α × α × α)) :=
  match truncPairs qbinsc Imean b with
  | [] => none
  | p :: rest => some ((p :: rest).map (fun r => (r.1, r.2, p.2 * (3 / 100))))

end BinScheme

section LoadGeometry

/-- Embedding of `if rho.shape[0]%2==1: rho = rho[:-1,:-1,:-1]` from
rho2dat.py: an odd sample count is trimmed by one voxel per axis. -/
def trimOdd (N : ℕ) : ℕ := if N % 2 = 1 then N - 1 else N

/-- Number of samples kept by the numpy stride slice `rho[::ns]` on an axis
of `N` samples: `⌈N / ns⌉`. -/
def strideCount (N ns : ℕ) : ℕ := (N + ns - 1) / ns

/-- Sample count per axis after the odd trim followed by the
`rho[::ns, ::ns, ::ns]` stride sampling in rho2dat.py. -/
def nAfterLoad (N ns : ℕ) : ℕ := strideCount (trimOdd N) ns

/-- Embedding of `voxel = side/n` from rho2dat.py, evaluated on the
post-trim post-stride sample count while `side` is kept at the value read
from the map file. -/
def voxelAfterLoad (side : ℚ) (N ns : ℕ) : ℚ := side / (nAfterLoad N ns : ℚ)

end LoadGeometry

section RegridRows

/-- Model of one IEEE floating point datum as read from a profile file:
either a finite (exact) value, NaN, or a signed infinity.  Rounding is out
of scope; only the finite/NaN/infinite classification matters for the
filtering logic of regrid.py. -/
inductive PyFloat
  | fin : ℚ → PyFloat
  | nan : PyFloat
  | inf : PyFloat
  | ninf : PyFloat
  deriving DecidableEq

/-- Embedding of `np.isnan` on one datum. -/
def PyFloat.isnan : PyFloat → Bool
  | PyFloat.nan => true
  | _ => false

/-- IEEE `≤` on model floats: any comparison with NaN is false. -/
def pyLe : PyFloat → PyFloat → Bool
  | PyFloat.nan, _ => false
  | _, PyFloat.nan => false
  | PyFloat.ninf, _ => true
  | _, PyFloat.inf => true
  | PyFloat.inf, _ => false
  | PyFloat.fin _, PyFloat.ninf => false
  | PyFloat.fin a, PyFloat.fin b => decide (a ≤ b)

/-- Pairwise maximum with numpy's NaN propagation. -/
def pymax2 (a b : PyFloat) : PyFloat :=
  if a.isnan || b.isnan then PyFloat.nan else if pyLe a b then b else a

/-- Pairwise minimum with numpy's NaN propagation. -/
def pymin2 (a b : PyFloat) : PyFloat :=
  if a.isnan || b.isnan then PyFloat.nan else if pyLe a b then a else b

/-- Embedding of `arr.max()` on one column; the empty-list value NaN is
never used (numpy raises on an empty array). -/
def pymaxList : List PyFloat → PyFloat
  | [] => PyFloat.nan
  | h :: t => t.foldl pymax2 h

/-- One (q, I, sigq) row of a loaded profile. -/
abbrev Row3 := PyFloat × PyFloat × PyFloat

/-- Embedding of `Iq = Iq[~np.isnan(Iq).any(axis = 1)]` from regrid.py:
drop every row containing a NaN in any of the three columns. -/
def dropNanRows (rows : List Row3) : List Row3 :=
  rows.filter (fun r => !(r.1.isnan || r.2.1.isnan || r.2.2.isnan))

/-- Embedding of `idx = np.where((Iq[:,1]!=0)&(Iq[:,2]!=0)); Iq = Iq[idx]`
from regrid.py: drop rows with exactly-zero intensity or uncertainty. -/
def dropZeroRows (rows : List Row3) : List Row3 :=
  rows.filter (fun r => decide (r.2.1 ≠ PyFloat.fin 0) && decide (r.2.2 ≠ PyFloat.fin 0))

/-- The rows regrid.py passes to the cubic interpolators: the NaN-row filter
followed by the zero filter. -/
def fitRows (rows : List Row3) : List Row3 := dropZeroRows (dropNanRows rows)

/-- Embedding of
`qmax = np.min([Iq[:,0].max(), Iq_calc[:,0].max()]); Iq = Iq[Iq[:,0]<=qmax]; Iq_calc = Iq_calc[Iq_calc[:,0]<=qmax]`
from regrid.py. -/
def regridTrunc (iq iqcalc : List Row3) : List Row3 × List Row3 :=
  let qm := pymin2 (pymaxList (iq.map (fun r => r.1))) (pymaxList (iqcalc.map (fun r => r.1)))
  (iq.filter (fun r => pyLe r.1 qm), iqcalc.filter (fun r => pyLe r.1 qm))

end RegridRows

section RegridPath

/-- Path separator, for the model of `os.path.basename`. -/
def slashStr : String := "/"

/-- Extension separator, for the model of `os.path.splitext`. -/
def dotStr : String := "."

/-- The literal suffix `'.regrid.dat'` appended by regrid.py. -/
def regridSuffix : String := ".regrid.dat"

/-- Modelled from the spec: path handling is an external (Python `os.path`)
collaborator.  `os.path.basename` keeps the part after the last separator. -/
def pyBasename (s : String) : String := (s.splitOn slashStr).getLastD s

/-- Modelled from the spec: `os.path.splitext(s)[0]` drops the part from the
last dot on (for plain file names such as those used below). -/
def pySplitextBase (s : String) : String :=
  let parts := s.splitOn dotStr
  if parts.length ≤ 1 then s else String.intercalate dotStr parts.dropLast

/-- The file name regrid.py's `np.savetxt(basename+'.regrid.dat', ...)` call
writes to, as a function of the `-f` argument and the `-o` argument.  The
local variable `basename` is assigned only in the `args.output is None`
branch of `main`; with `-o` given the call raises NameError and no file is
written, modelled as `none`. -/
def regridWritePath (file : String) (outArg : Option String) : Option String :=
  match outArg with
  | none => some (pySplitextBase (pyBasename file) ++ regridSuffix)
  | some _ => none

end RegridPath

section FrequencyGrid

/-- The integer numerators of `np.fft.fftfreq(n)`: entry `i` is `i` for
`i < ⌈n/2⌉` and `i - n` beyond, so that `fftfreq(n)[i] = fftfreqNum n i / n`. -/
def fftfreqNum (n i : ℕ) : ℤ := if i < (n + 1) / 2 then (i : ℤ) else (i : ℤ) - (n : ℤ)

/-- Embedding of `qx_ = np.fft.fftfreq(x_.size)*n*df*2*np.pi` from
rho2dat.py with `df = 1/side`: the frequency-axis coordinate at index `i`. -/
noncomputable def qxAxis (n : ℕ) (side : ℝ) (i : ℕ) : ℝ :=
  (fftfreqNum n i : ℝ) * (2 * Real.pi / side)

/-- The full frequency axis `qx_` as a list. -/
noncomputable def qxList (n : ℕ) (side : ℝ) : List ℝ :=
  (List.range n).map (qxAxis n side)

/-- All grid cells `(i, j, k)` in C (ravel) order, as produced by
`np.meshgrid(..., indexing='ij')` followed by `.ravel()`. -/
def cells (n : ℕ) : List (ℕ × ℕ × ℕ) :=
  (List.range n).flatMap (fun i =>
    (List.range n).flatMap (fun j =>
      (List.range n).map (fun k => (i, j, k))))

/-- Embedding of `qr = np.sqrt(qx**2+qy**2+qz**2)` followed by `.ravel()`:
the list of frequency magnitudes of every grid cell, in C order. -/
noncomputable def qrListR (n : ℕ) (side : ℝ) : List ℝ :=
  (cells n).map (fun c =>
    Real.sqrt (qxAxis n side c.1 ^ 2 + qxAxis n side c.2.1 ^ 2 + qxAxis n side c.2.2 ^ 2))

/-- The magnitudes of the n = 2, side = 2π grid, written out: the proofs
below show `qrListR 2 (2π)` equals this list. -/
noncomputable def grid2vals : List ℝ :=
  [0, 1, 1, Real.sqrt 2, 1, Real.sqrt 2, Real.sqrt 2, Real.sqrt 3]

/-- Embedding of `qmax_to_use = np.max(qx_)` from rho2dat.py: the largest
frequency along one axis of the (possibly rebuilt) grid. -/
noncomputable def qmaxToUse (n : ℕ) (side : ℝ) : ℝ := npMax (qxList n side)

/-- Embedding of `qbinsc_to_use = qbinsc[qbinsc < qmax_to_use]` from
rho2dat.py: the representative frequencies kept in the output profile.
A NaN entry (zero-count shell) fails the comparison and is dropped. -/
def truncQbinsc {α : Type} [LinearOrderedField α] (qbinsc : List (Option α)) (b : α) :
    List (Option α) :=
  qbinsc.filter (fun x => oLt x b)

/-- Formalisation of claim C6 at one grid: the kept representative
frequencies are exactly the shells whose representative frequency is at or
below the smaller of the axis bound `b` and the reference-profile bound
`M`. -/
def c6ClaimAt (l : List ℝ) (b M : ℝ) : Prop :=
  ∀ k, k < (qbinscOf l).length → ∀ q : ℝ, (qbinscOf l).getD k none = some q →
    (some q ∈ truncQbinsc (qbinscOf l) b ↔ q ≤ min b M)

end FrequencyGrid

section ResolutionController

/-- Embedding of the target-spacing branch of the resolution controller in
rho2dat.py (`current_dq = 2*np.pi/side ... if n%2==1: n+=1`): given the
current physical side, the voxel size and the requested spacing `dqArg`,
returns the new sample count `n` and whether the clamp warning was printed.
The current sample count is not read by this branch. -/
noncomputable def resControllerDq (side voxel dqArg : ℝ) : ℤ × Bool :=
  let currentDq := 2 * Real.pi / side
  let desiredDq := if currentDq < dqArg then currentDq else dqArg
  let desiredSide := 2 * Real.pi / desiredDq
  let desiredN := desiredSide / voxel
  let n0 := pyInt desiredN
  (if n0 % 2 = 1 then n0 + 1 else n0, decide (currentDq < dqArg))

/-- Embedding of `side = voxel*n` after the resolution controller fixes `n`. -/
noncomputable def resNewSide (voxel : ℝ) (n : ℤ) : ℝ := voxel * (n : ℝ)

end ResolutionController

section ForwardTransform

/-- Modelled from the spec: `saxstats.saxstats.myfftn` is not under `src/`;
the spec defines it as the N-dimensional discrete Fourier transform of the
density grid. -/
noncomputable def myfftn (n : ℕ) (rho : ℕ → ℕ → ℕ → ℝ) (k : ℕ × ℕ × ℕ) : ℂ :=
  ∑ x1 ∈ Finset.range n, ∑ x2 ∈ Finset.range n, ∑ x3 ∈ Finset.range n,
    (rho x1 x2 x3 : ℂ) *
      Complex.exp (-2 * (Real.pi : ℂ) * Complex.I *
        (((k.1 * x1 + k.2.1 * x2 + k.2.2 * x3 : ℕ) : ℂ) / (n : ℂ)))

/-- Embedding of `F[F.real==0] = 1e-16` from rho2dat.py: a DFT cell whose
real part is exactly zero is replaced by the real constant 1e-16. -/
noncomputable def zeroFloorDFT (F : ℕ × ℕ × ℕ → ℂ) (k : ℕ × ℕ × ℕ) : ℂ :=
  if (F k).re = 0 then (((1 : ℝ) / 10 ^ 16 : ℝ) : ℂ) else F k

/-- Modelled from the spec: `saxstats.saxstats.abs2` is not under `src/`;
the spec defines it as the magnitude-squared per frequency cell. -/
def abs2 (z : ℂ) : ℝ := z.re ^ 2 + z.im ^ 2

/-- The intensity grid of the first (baseline) transform in rho2dat.py,
where the zero-real-part floor is applied before squaring. -/
noncomputable def I3DFirst (n : ℕ) (rho : ℕ → ℕ → ℕ → ℝ) (k : ℕ × ℕ × ℕ) : ℝ :=
  abs2 (zeroFloorDFT (myfftn n rho) k)

/-- The intensity grid of the second transform in rho2dat.py (the one whose
aggregation is written to the output file): `F = saxs.myfftn(rho);
I3D = saxs.abs2(F)` with no floor line in between. -/
noncomputable def I3DFinal (n : ℕ) (rho : ℕ → ℕ → ℕ → ℝ) (k : ℕ × ℕ × ℕ) : ℝ :=
  abs2 (myfftn n rho k)

end ForwardTransform

/-! Claims C7, C8, C9. -/

/-- C8 counterexample: with a map of N = 4 samples, physical side 4 (voxel
size 1) and stride ns = 3, the slice keeps ⌈4/3⌉ = 2 samples per axis, so
the new voxel size is 4/2 = 2, not the claimed ns × original = 3. -/
theorem c8_stride_voxel_cex :
    voxelAfterLoad 4 4 3 = 2 ∧ (2 : ℚ) ≠ 3 * ((4 : ℚ) / 4) := by
  constructor
  · norm_num [voxelAfterLoad, nAfterLoad, strideCount, trimOdd]
  · norm_num

/-- C8 amended: after the odd trim and the stride slice the side length is
reused unchanged, so the voxel size becomes side / ⌈N₀/ns⌉ with N₀ the
post-trim sample count; this equals ns times the post-trim voxel size
side/N₀ exactly when ns divides N₀ (in particular whenever ns = 1, and in
the pure odd-trim case the voxel grows from side/N to side/(N-1)). -/
theorem c8_load_geometry (side : ℚ) (N ns : ℕ) (hns : 0 < ns)
    (hdvd : ns ∣ trimOdd N) (hN : 0 < trimOdd N) :
    nAfterLoad N ns = trimOdd N / ns ∧
    voxelAfterLoad side N ns = ns * (side / (trimOdd N : ℚ)) := by
  obtain ⟨q, hq⟩ := hdvd
  have hq0 : 0 < q := by
    rcases Nat.eq_zero_or_pos q with h0 | h0
    · rw [h0, Nat.mul_zero] at hq; omega
    · exact h0
  have hcount : strideCount (trimOdd N) ns = q := by
    unfold strideCount
    rw [hq]
    have h1 : ns * q + ns - 1 = ns * q + (ns - 1) := by omega
    rw [h1, Nat.mul_add_div hns, Nat.div_eq_of_lt (by omega)]
    omega
  constructor
  · unfold nAfterLoad
    rw [hcount, hq, Nat.mul_comm, Nat.mul_div_cancel _ hns]
  · unfold voxelAfterLoad nAfterLoad
    rw [hcount, hq]
    have hnsQ : (ns : ℚ) ≠ 0 := Nat.cast_ne_zero.mpr (by omega)
    have hqQ : (q : ℚ) ≠ 0 := Nat.cast_ne_zero.mpr (by omega)
    push_cast
    field_simp
    ring

/-- C8 witness: N = 6, ns = 3, side = 6; the theorem applies and gives a
post-stride count of 6/3 = 2 samples and a voxel size of 3 × (6/6). -/
theorem c8_load_geometry_witness :
    nAfterLoad 6 3 = trimOdd 6 / 3 ∧
    voxelAfterLoad 6 6 3 = 3 * ((6 : ℚ) / (trimOdd 6 : ℚ)) :=
  c8_load_geometry 6 6 3 (by decide) (by decide) (by decide)

/-- C9 counterexample: running regrid.py on `profile.dat` with
`-o custom` does not write to the same path as running it without `-o`:
the `-o` run raises NameError before writing (the local `basename` is only
assigned on the no-output-argument branch), modelled as `none`. -/
theorem c9_output_path_cex :
    regridWritePath "profile.dat" (some "custom") ≠ regridWritePath "profile.dat" none :=
  fun h => Option.noConfusion h

/-- C9 amended: when `-o` is omitted the resampled profile is written to
the input basename (directory and extension stripped) plus `.regrid.dat`,
and the computed output prefix is never used; when `-o` is supplied the
write fails with NameError (the `basename` variable is never assigned on
that branch) and no file is written. -/
theorem c9_regrid_write_path (file : String) (o : String) :
    regridWritePath file none = some (pySplitextBase (pyBasename file) ++ regridSuffix) ∧
    regridWritePath file (some o) = none :=
  ⟨rfl, rfl⟩

/-- C7 counterexample: a source row with infinite intensity
(q = 1, I = +inf, σ = 1) survives both filters of regrid.py and is used
for fitting, though the claim says every row with non-finite intensity is
discarded: `np.isnan` does not flag infinities and `inf != 0` holds. -/
theorem c7_inf_row_kept_cex :
    (PyFloat.fin 1, PyFloat.inf, PyFloat.fin 1) ∈
      fitRows [(PyFloat.fin 1, PyFloat.inf, PyFloat.fin 1)] := by
  decide

/-- C7 amended: before fitting, regrid.py discards exactly the rows with a
NaN in any of the three columns and the rows with exactly-zero intensity
or uncertainty; infinite values are not discarded.  The resampled output is
truncated (inclusively) at the smaller of the filtered input's and the
target grid's maximum frequency. -/
theorem c7_regrid_filter_and_trunc :
    (∀ (rows : List Row3) (r : Row3),
      r ∈ fitRows rows ↔
        r ∈ rows ∧ r.1.isnan = false ∧ r.2.1.isnan = false ∧ r.2.2.isnan = false ∧
          r.2.1 ≠ PyFloat.fin 0 ∧ r.2.2 ≠ PyFloat.fin 0) ∧
    (∀ (iq iqcalc : List Row3) (r : Row3),
      r ∈ (regridTrunc iq iqcalc).2 ↔
        r ∈ iqcalc ∧
          pyLe r.1 (pymin2 (pymaxList (iq.map (fun s => s.1)))
            (pymaxList (iqcalc.map (fun s => s.1)))) = true) := by
  constructor
  · intro rows r
    simp only [fitRows, dropZeroRows, dropNanRows, List.mem_filter, Bool.and_eq_true,
      decide_eq_true_eq, Bool.not_eq_true', Bool.or_eq_false_iff]
    tauto
  · intro iq iqcalc r
    simp only [regridTrunc, List.mem_filter]

/-! General lemmas about the spherical bin scheme. -/

section BinSchemeLemmas

variable {α : Type} [LinearOrderedField α] [FloorRing α]

theorem foldl_min_le_init (t : List α) (a : α) : t.foldl min a ≤ a := by
  induction t generalizing a with
  | nil => simp
  | cons h tl ih => exact le_trans (ih (min a h)) (min_le_left a h)

theorem foldl_min_le_mem (t : List α) (a : α) : ∀ x ∈ t, t.foldl min a ≤ x := by
  induction t generalizing a with
  | nil => simp
  | cons h tl ih =>
    intro x hx
    rcases List.mem_cons.mp hx with rfl | hx
    · exact le_trans (foldl_min_le_init tl (min a x)) (min_le_right a x)
    · exact ih (min a h) x hx

theorem foldl_min_mem (t : List α) (a : α) : t.foldl min a = a ∨ t.foldl min a ∈ t := by
  induction t generalizing a with
  | nil => simp
  | cons h tl ih =>
    rcases ih (min a h) with heq | hmem
    · rw [List.foldl_cons, heq]
      rcases le_total a h with hle | hle
      · left
        exact min_eq_left hle
      · right
        rw [min_eq_right hle]
        exact List.mem_cons_self h tl
    · right
      exact List.mem_cons_of_mem h hmem

theorem init_le_foldl_max (t : List α) (a : α) : a ≤ t.foldl max a := by
  induction t generalizing a with
  | nil => simp
  | cons h tl ih => exact le_trans (le_max_left a h) (ih (max a h))

theorem mem_le_foldl_max (t : List α) (a : α) : ∀ x ∈ t, x ≤ t.foldl max a := by
  induction t generalizing a with
  | nil => simp
  | cons h tl ih =>
    intro x hx
    rcases List.mem_cons.mp hx with rfl | hx
    · exact le_trans (le_max_right a x) (init_le_foldl_max tl (max a x))
    · exact ih (max a h) x hx

theorem foldl_max_mem (t : List α) (a : α) : t.foldl max a = a ∨ t.foldl max a ∈ t := by
  induction t generalizing a with
  | nil => simp
  | cons h tl ih =>
    rcases ih (max a h) with heq | hmem
    · rw [List.foldl_cons, heq]
      rcases le_total a h with hle | hle
      · right
        rw [max_eq_right hle]
        exact List.mem_cons_self h tl
      · left
        exact max_eq_left hle
    · right
      exact List.mem_cons_of_mem h hmem

theorem npMin_le (l : List α) (x : α) (hx : x ∈ l) : npMin l ≤ x := by
  cases l with
  | nil => simp at hx
  | cons h t =>
    rcases List.mem_cons.mp hx with rfl | hx
    · exact foldl_min_le_init t x
    · exact foldl_min_le_mem t h x hx

theorem npMin_mem (l : List α) (hl : l ≠ []) : npMin l ∈ l := by
  cases l with
  | nil => exact absurd rfl hl
  | cons h t =>
    rcases foldl_min_mem t h with heq | hmem
    · rw [npMin, heq]
      exact List.mem_cons_self h t
    · exact List.mem_cons_of_mem h hmem

theorem le_npMax (l : List α) (x : α) (hx : x ∈ l) : x ≤ npMax l := by
  cases l with
  | nil => simp at hx
  | cons h t =>
    rcases List.mem_cons.mp hx with rfl | hx
    · exact init_le_foldl_max t x
    · exact mem_le_foldl_max t h x hx

theorem npMax_mem (l : List α) (hl : l ≠ []) : npMax l ∈ l := by
  cases l with
  | nil => exact absurd rfl hl
  | cons h t =>
    rcases foldl_max_mem t h with heq | hmem
    · rw [npMax, heq]
      exact List.mem_cons_self h t
    · exact List.mem_cons_of_mem h hmem

theorem epsShell_pos : (0 : α) < epsShell := by norm_num [epsShell]

theorem minPosMag_pos (l : List α) (hq : 0 < qstepOf l) : 0 < minPosMag l := by
  have := epsShell_pos (α := α)
  unfold qstepOf at hq
  linarith

theorem minPosMag_spec (l : List α) (hq : 0 < qstepOf l) :
    minPosMag l ∈ l ∧ ∀ v ∈ l, 0 < v → minPosMag l ≤ v := by
  have hpos := minPosMag_pos l hq
  cases hfil : l.filter (fun v => decide (0 < v)) with
  | nil =>
    exfalso
    have : minPosMag l = 0 := by rw [minPosMag, hfil, npMin]
    rw [this] at hpos
    exact lt_irrefl 0 hpos
  | cons h t =>
    have hmem : minPosMag l ∈ l.filter (fun v => decide (0 < v)) := by
      rw [minPosMag, hfil] at *
      exact npMin_mem _ (List.cons_ne_nil h t)
    constructor
    · exact (List.mem_filter.mp hmem).1
    · intro v hv hvpos
      apply npMin_le
      exact List.mem_filter.mpr ⟨hv, by simpa using hvpos⟩

theorem qstep_lt_minPosMag (l : List α) : qstepOf l < minPosMag l := by
  have := epsShell_pos (α := α)
  unfold qstepOf
  linarith

theorem minPosMag_le_npMax (l : List α) (hq : 0 < qstepOf l) : minPosMag l ≤ npMax l :=
  le_npMax l _ (minPosMag_spec l hq).1

theorem npMax_pos (l : List α) (hq : 0 < qstepOf l) : 0 < npMax l :=
  lt_of_lt_of_le (minPosMag_pos l hq) (minPosMag_le_npMax l hq)

theorem one_le_ratio (l : List α) (hq : 0 < qstepOf l) : (1 : α) ≤ npMax l / qstepOf l := by
  rw [le_div_iff₀ hq, one_mul]
  exact le_trans (qstep_lt_minPosMag l).le (minPosMag_le_npMax l hq)

theorem one_le_nbins (l : List α) (hq : 0 < qstepOf l) : 1 ≤ nbinsOf l := by
  unfold nbinsOf pyInt
  have hx := one_le_ratio l hq
  rw [if_neg (not_lt.mpr (le_trans zero_le_one hx))]
  exact Int.le_floor.mpr (by exact_mod_cast hx)

theorem nbins_toNat_cast (l : List α) (hq : 0 < qstepOf l) :
    ((nbinsOf l).toNat : ℤ) = nbinsOf l :=
  Int.toNat_of_nonneg (by have := one_le_nbins l hq; omega)

theorem nbins_eq_floor (l : List α) (hq : 0 < qstepOf l) :
    nbinsOf l = ⌊npMax l / qstepOf l⌋ := by
  unfold nbinsOf pyInt
  have hx := one_le_ratio l hq
  rw [if_neg (not_lt.mpr (le_trans zero_le_one hx))]

theorem qbins_eq (l : List α) (hq : 0 < qstepOf l) :
    qbinsOf l = (List.range ((nbinsOf l).toNat + 1)).map (fun i : ℕ => (i : α) * qstepOf l) := by
  have hK : 1 ≤ (nbinsOf l).toNat := by
    have := one_le_nbins l hq
    omega
  have hKa := congrArg (fun z : ℤ => (z : α)) (nbins_toNat_cast l hq)
  push_cast at hKa
  have hKne : (((nbinsOf l).toNat : ℕ) : α) ≠ 0 := Nat.cast_ne_zero.mpr (by omega)
  unfold qbinsOf linspace
  rw [if_neg (by omega)]
  apply List.ext_getElem
  · simp
  · intro i h1 h2
    simp only [List.getElem_map, List.getElem_range]
    rw [← hKa]
    push_cast
    field_simp
    ring

theorem qbins_length (l : List α) (hq : 0 < qstepOf l) :
    (qbinsOf l).length = (nbinsOf l).toNat + 1 := by
  rw [qbins_eq l hq, List.length_map, List.length_range]

theorem qbins_getD (l : List α) (hq : 0 < qstepOf l) (k : ℕ)
    (hk : k < (nbinsOf l).toNat + 1) :
    (qbinsOf l).getD k 0 = (k : α) * qstepOf l := by
  rw [qbins_eq l hq, List.getD_eq_getElem?_getD]
  have hlen : k <
      ((List.range ((nbinsOf l).toNat + 1)).map (fun i : ℕ => (i : α) * qstepOf l)).length := by
    simpa using hk
  rw [List.getElem?_eq_getElem hlen]
  simp

theorem countP_range_le_int (N : ℕ) (m : ℤ) :
    (List.range N).countP (fun i : ℕ => decide ((i : ℤ) ≤ m)) = min N (m + 1).toNat := by
  induction N with
  | zero => simp
  | succ n ih =>
    have hsingle : List.countP (fun i : ℕ => decide ((i : ℤ) ≤ m)) [n]
        = if (n : ℤ) ≤ m then 1 else 0 := by
      by_cases h : (n : ℤ) ≤ m
      · simp [List.countP_cons, h]
      · simp [List.countP_cons, h]
    rw [List.range_succ, List.countP_append, ih, hsingle]
    by_cases h : (n : ℤ) ≤ m
    · rw [if_pos h]
      omega
    · rw [if_neg h]
      omega

theorem labelOf_closed (l : List α) (hq : 0 < qstepOf l) (v : α) (hv : 0 ≤ v) :
    labelOf l v = min (nbinsOf l) ⌊v / qstepOf l⌋ := by
  unfold labelOf searchsortedRight
  rw [qbins_eq l hq, List.countP_map]
  have hfun : ∀ x ∈ List.range ((nbinsOf l).toNat + 1),
      (((fun e => decide (e ≤ v)) ∘ (fun i : ℕ => (i : α) * qstepOf l)) x = true ↔
        (fun i : ℕ => decide ((i : ℤ) ≤ ⌊v / qstepOf l⌋)) x = true) := by
    intro i _
    simp only [Function.comp_apply, decide_eq_true_eq]
    rw [← le_div_iff₀ hq, Int.le_floor]
    push_cast
    rfl
  rw [List.countP_congr hfun, countP_range_le_int]
  have hm : 0 ≤ ⌊v / qstepOf l⌋ := Int.floor_nonneg.mpr (div_nonneg hv hq.le)
  have hK := nbins_toNat_cast l hq
  omega

theorem labelOf_nonneg (l : List α) (hq : 0 < qstepOf l) (v : α) (hv : 0 ≤ v) :
    0 ≤ labelOf l v := by
  rw [labelOf_closed l hq v hv]
  have h1 := one_le_nbins l hq
  have h2 : 0 ≤ ⌊v / qstepOf l⌋ := Int.floor_nonneg.mpr (div_nonneg hv hq.le)
  omega

theorem labelOf_le_nbins (l : List α) (hq : 0 < qstepOf l) (v : α) (hv : 0 ≤ v) :
    labelOf l v ≤ nbinsOf l := by
  rw [labelOf_closed l hq v hv]
  omega

theorem labelOf_zero (l : List α) (hq : 0 < qstepOf l) : labelOf l 0 = 0 := by
  rw [labelOf_closed l hq 0 le_rfl, zero_div, Int.floor_zero]
  have := one_le_nbins l hq
  omega

theorem edge_le_of_label (l : List α) (hq : 0 < qstepOf l) (v : α) (hv : 0 ≤ v) :
    (labelOf l v : α) * qstepOf l ≤ v := by
  rw [labelOf_closed l hq v hv, ← le_div_iff₀ hq]
  refine le_trans ?_ (Int.floor_le _)
  exact_mod_cast min_le_right (nbinsOf l) ⌊v / qstepOf l⌋

theorem lt_edge_of_label (l : List α) (hq : 0 < qstepOf l) (v : α) (hv : 0 ≤ v)
    (hlt : labelOf l v < nbinsOf l) :
    v < ((labelOf l v : α) + 1) * qstepOf l := by
  have hcl := labelOf_closed l hq v hv
  have hfl : labelOf l v = ⌊v / qstepOf l⌋ := by
    rw [hcl] at hlt ⊢
    omega
  have hx := Int.lt_floor_add_one (v / qstepOf l)
  rw [← div_lt_iff₀ hq, hfl]
  push_cast
  exact_mod_cast hx

theorem labelOf_eq_iff (l : List α) (hq : 0 < qstepOf l) (v : α) (hv : 0 ≤ v) (k : ℕ)
    (hk : (k : ℤ) < nbinsOf l) :
    labelOf l v = (k : ℤ) ↔ (k : α) * qstepOf l ≤ v ∧ v < ((k : α) + 1) * qstepOf l := by
  constructor
  · intro h
    constructor
    · have := edge_le_of_label l hq v hv
      rw [h] at this
      exact_mod_cast this
    · have := lt_edge_of_label l hq v hv (by omega)
      rw [h] at this
      exact_mod_cast this
  · rintro ⟨h1, h2⟩
    have hfl : ⌊v / qstepOf l⌋ = (k : ℤ) := by
      rw [Int.floor_eq_iff]
      constructor
      · rw [le_div_iff₀ hq]
        exact_mod_cast h1
      · rw [div_lt_iff₀ hq]
        push_cast
        exact_mod_cast h2
    rw [labelOf_closed l hq v hv, hfl]
    omega

theorem foldr_max_le_int (t : List ℤ) (a c : ℤ) (ha : a ≤ c) (h : ∀ x ∈ t, x ≤ c) :
    t.foldr max a ≤ c := by
  induction t with
  | nil => simpa using ha
  | cons x tl ih =>
    simp only [List.foldr_cons]
    exact max_le (h x (List.mem_cons_self x tl))
      (ih (fun y hy => h y (List.mem_cons_of_mem x hy)))

theorem le_foldr_max_int (t : List ℤ) (a : ℤ) :
    a ≤ t.foldr max a ∧ ∀ x ∈ t, x ≤ t.foldr max a := by
  induction t with
  | nil => simp
  | cons x tl ih =>
    simp only [List.foldr_cons]
    refine ⟨le_trans ih.1 (le_max_right x _), ?_⟩
    intro y hy
    rcases List.mem_cons.mp hy with rfl | hy
    · exact le_max_left y _
    · exact le_trans (ih.2 y hy) (le_max_right x _)

theorem sum_indicator_ge (a : ℤ) (N : ℕ) (h : (N : ℤ) ≤ a) :
    ((List.range N).map (fun k : ℕ => if a = (k : ℤ) then 1 else 0)).sum = 0 := by
  induction N with
  | zero => simp
  | succ n ih =>
    rw [List.range_succ, List.map_append, List.sum_append, ih (by push_cast at h ⊢; omega)]
    simp only [List.map_cons, List.map_nil, List.sum_cons, List.sum_nil]
    rw [if_neg (by push_cast at h ⊢; omega)]
    omega

theorem sum_indicator_eq (a : ℤ) (N : ℕ) (h0 : 0 ≤ a) (hN : a < (N : ℤ)) :
    ((List.range N).map (fun k : ℕ => if a = (k : ℤ) then 1 else 0)).sum = 1 := by
  induction N with
  | zero => simp at hN; omega
  | succ n ih =>
    rw [List.range_succ, List.map_append, List.sum_append]
    by_cases hcase : a = (n : ℤ)
    · rw [sum_indicator_ge a n (by omega)]
      simp [hcase]
    · rw [ih (by push_cast at hN ⊢; omega)]
      simp [hcase]

theorem sum_count_range (labels : List ℤ) (N : ℕ)
    (h : ∀ x ∈ labels, 0 ≤ x ∧ x < (N : ℤ)) :
    ((List.range N).map (fun k : ℕ => labels.count (k : ℤ))).sum = labels.length := by
  induction labels with
  | nil => simp
  | cons a t ih =>
    have hmap : ∀ k ∈ List.range N,
        (fun k : ℕ => (a :: t).count (k : ℤ)) k
          = (fun k : ℕ => t.count (k : ℤ) + (if a = (k : ℤ) then 1 else 0)) k := by
      intro k _
      simp only [List.count_cons]
      congr 1
      by_cases hcase : a = (k : ℤ)
      · simp [hcase]
      · simp [hcase, Ne.symm hcase]
    rw [List.map_congr_left hmap, List.sum_map_add,
      ih (fun x hx => h x (List.mem_cons_of_mem a hx)),
      sum_indicator_eq a N (h a (List.mem_cons_self a t)).1 (h a (List.mem_cons_self a t)).2]
    simp

theorem bincount_sum (labels : List ℤ) (h : ∀ x ∈ labels, 0 ≤ x) :
    (bincount labels).sum = labels.length := by
  cases labels with
  | nil => rfl
  | cons a t =>
    have hmax := le_foldr_max_int (a :: t) 0
    simp only [bincount]
    apply sum_count_range
    intro x hx
    refine ⟨h x hx, ?_⟩
    have h1 : x ≤ (a :: t).foldr max 0 := hmax.2 x hx
    have h2 : (0 : ℤ) ≤ (a :: t).foldr max 0 := hmax.1
    omega

theorem bincount_length (labels : List ℤ) (h : labels ≠ []) :
    (bincount labels).length = (labels.foldr max 0).toNat + 1 := by
  cases labels with
  | nil => exact absurd rfl h
  | cons a t => simp [bincount]

theorem bincount_getD (labels : List ℤ) (k : ℕ) (hk : k < (bincount labels).length) :
    (bincount labels).getD k 0 = labels.count (k : ℤ) := by
  cases labels with
  | nil => simp [bincount] at hk
  | cons a t =>
    have hk2 : k < ((a :: t).foldr max 0).toNat + 1 := by
      rw [← bincount_length (a :: t) (List.cons_ne_nil a t)]
      exact hk
    simp only [bincount]
    rw [List.getD_eq_getElem?_getD, List.getElem?_eq_getElem (by simpa using hk2)]
    simp

theorem zip_labels_eq (l : List α) :
    (qbinLabelsOf l).zip l = l.map (fun v => (labelOf l v, v)) := by
  have h := List.zip_map' (labelOf l) (fun v : α => v) l
  rw [List.map_id'] at h
  simpa [qbinLabelsOf] using h

theorem shell_vals_eq (l : List α) (k : ℕ) :
    (((qbinLabelsOf l).zip l).filter (fun p => decide (p.1 = (k : ℤ)))).map
        (fun p => p.2) = shellList l k := by
  rw [zip_labels_eq, List.filter_map, List.map_map]
  simp only [Function.comp_def, List.map_id']
  rfl

theorem binWeightedSum_eq (l : List α) (k : ℕ) :
    binWeightedSum l (qbinLabelsOf l) k = (shellList l k).sum := by
  unfold binWeightedSum
  rw [shell_vals_eq]

theorem count_label_eq (l : List α) (k : ℕ) :
    (qbinLabelsOf l).count (k : ℤ) = (shellList l k).length := by
  rw [List.count_eq_countP]
  unfold qbinLabelsOf
  rw [List.countP_map, shellList, List.countP_eq_length_filter]
  congr 1

theorem xcountOf_getD (l : List α) (k : ℕ) (hk : k < (xcountOf l).length) :
    (xcountOf l).getD k 0 = (shellList l k).length := by
  unfold xcountOf at hk ⊢
  rw [bincount_getD _ _ hk, count_label_eq]

theorem qbinscOf_length (l : List α) : (qbinscOf l).length = (xcountOf l).length := by
  simp [qbinscOf, mybinmean]

theorem qbinscOf_getD (l : List α) (k : ℕ) (hk : k < (xcountOf l).length) :
    (qbinscOf l).getD k none =
      if (shellList l k).length = 0 then none
      else some ((shellList l k).sum / ((shellList l k).length : α)) := by
  unfold qbinscOf mybinmean
  rw [List.getD_eq_getElem?_getD, List.getElem?_eq_getElem (by simpa using hk)]
  simp only [List.getElem_map, List.getElem_range, Option.getD_some]
  rw [xcountOf_getD l k hk, binWeightedSum_eq]

theorem shellList_mem (l : List α) (k : ℕ) (x : α) (hx : x ∈ shellList l k) :
    x ∈ l ∧ labelOf l x = (k : ℤ) := by
  have h := List.mem_filter.mp hx
  exact ⟨h.1, by simpa using h.2⟩

theorem shell_mean_lb (l : List α) (hq : 0 < qstepOf l) (hnn : ∀ v ∈ l, 0 ≤ v) (k : ℕ)
    (hne : shellList l k ≠ []) :
    (k : α) * qstepOf l ≤ (shellList l k).sum / ((shellList l k).length : α) := by
  have hlen : 0 < (shellList l k).length := List.length_pos.mpr hne
  have hlenA : (0 : α) < ((shellList l k).length : α) := by exact_mod_cast hlen
  rw [le_div_iff₀ hlenA]
  have hbound : ∀ x ∈ shellList l k, (k : α) * qstepOf l ≤ x := by
    intro x hx
    obtain ⟨hxl, hlab⟩ := shellList_mem l k x hx
    have := edge_le_of_label l hq x (hnn x hxl)
    rw [hlab] at this
    exact_mod_cast this
  calc (k : α) * qstepOf l * ((shellList l k).length : α)
      = ((shellList l k).length : ℕ) • ((k : α) * qstepOf l) := by
        rw [nsmul_eq_mul]
        ring
    _ ≤ (shellList l k).sum := List.card_nsmul_le_sum _ _ hbound

theorem shell_mean_ub (l : List α) (hq : 0 < qstepOf l) (hnn : ∀ v ∈ l, 0 ≤ v) (k : ℕ)
    (hk : (k : ℤ) < nbinsOf l) (hne : shellList l k ≠ []) :
    (shellList l k).sum / ((shellList l k).length : α) ≤ ((k : α) + 1) * qstepOf l := by
  have hlen : 0 < (shellList l k).length := List.length_pos.mpr hne
  have hlenA : (0 : α) < ((shellList l k).length : α) := by exact_mod_cast hlen
  rw [div_le_iff₀ hlenA]
  have hbound : ∀ x ∈ shellList l k, x ≤ ((k : α) + 1) * qstepOf l := by
    intro x hx
    obtain ⟨hxl, hlab⟩ := shellList_mem l k x hx
    have := lt_edge_of_label l hq x (hnn x hxl) (by rw [hlab]; exact hk)
    rw [hlab] at this
    push_cast at this
    exact this.le
  calc (shellList l k).sum
      ≤ ((shellList l k).length : ℕ) • (((k : α) + 1) * qstepOf l) :=
        List.sum_le_card_nsmul _ _ hbound
    _ = ((k : α) + 1) * qstepOf l * ((shellList l k).length : α) := by
        rw [nsmul_eq_mul]
        ring

theorem xcount_index_le_nbins (l : List α) (hq : 0 < qstepOf l)
    (hnn : ∀ v ∈ l, 0 ≤ v) (j : ℕ) (hj : j < (xcountOf l).length) :
    (j : ℤ) ≤ nbinsOf l := by
  cases hl : l with
  | nil =>
    subst hl
    simp [xcountOf, qbinLabelsOf, bincount] at hj
  | cons a t =>
    subst hl
    have hlabne : qbinLabelsOf (a :: t) ≠ [] := by simp [qbinLabelsOf]
    rw [xcountOf, bincount_length _ hlabne] at hj
    have hmax1 : (qbinLabelsOf (a :: t)).foldr max 0 ≤ nbinsOf (a :: t) := by
      apply foldr_max_le_int
      · have := one_le_nbins _ hq
        omega
      · intro x hx
        obtain ⟨v, hv, rfl⟩ := List.mem_map.mp hx
        exact labelOf_le_nbins _ hq v (hnn v hv)
    have h0 : (0 : ℤ) ≤ (qbinLabelsOf (a :: t)).foldr max 0 :=
      (le_foldr_max_int _ 0).1
    omega

theorem qbinsc_mono (l : List α) (hq : 0 < qstepOf l) (hnn : ∀ v ∈ l, 0 ≤ v)
    (i j : ℕ) (hi : i < (xcountOf l).length) (hj : j < (xcountOf l).length) (hij : i < j)
    (a b : α) (ha : (qbinscOf l).getD i none = some a)
    (hb : (qbinscOf l).getD j none = some b) : a ≤ b := by
  rw [qbinscOf_getD l i hi] at ha
  rw [qbinscOf_getD l j hj] at hb
  by_cases hie : (shellList l i).length = 0
  · rw [if_pos hie] at ha
    cases ha
  by_cases hje : (shellList l j).length = 0
  · rw [if_pos hje] at hb
    cases hb
  rw [if_neg hie] at ha
  rw [if_neg hje] at hb
  have hane : shellList l i ≠ [] := fun hnil => hie (by rw [hnil]; rfl)
  have hbne : shellList l j ≠ [] := fun hnil => hje (by rw [hnil]; rfl)
  have hjb : (j : ℤ) ≤ nbinsOf l := xcount_index_le_nbins l hq hnn j hj
  have hib : (i : ℤ) < nbinsOf l := by
    have : (i : ℤ) < (j : ℤ) := by exact_mod_cast hij
    omega
  have h1 := shell_mean_ub l hq hnn i hib hane
  have h2 := shell_mean_lb l hq hnn j hbne
  have hmid : ((i : α) + 1) * qstepOf l ≤ (j : α) * qstepOf l := by
    apply mul_le_mul_of_nonneg_right _ hq.le
    have : (i : ℕ) + 1 ≤ j := hij
    exact_mod_cast this
  have hva : a = (shellList l i).sum / ((shellList l i).length : α) := (Option.some.inj ha).symm
  have hvb : b = (shellList l j).sum / ((shellList l j).length : α) := (Option.some.inj hb).symm
  rw [hva, hvb]
  linarith

theorem truncPairs_pairwise (l : List α) (Imean : List (Option α)) (b : α)
    (hq : 0 < qstepOf l) (hnn : ∀ v ∈ l, 0 ≤ v) :
    List.Pairwise (fun r s : α × α => r.1 ≤ s.1) (truncPairs (qbinscOf l) Imean b) := by
  unfold truncPairs
  have hzip : List.Pairwise
      (fun p pp : Option α × Option α =>
        ∀ x y : α, p.1 = some x → pp.1 = some y → x ≤ y)
      ((qbinscOf l).zip Imean) := by
    rw [List.pairwise_iff_get]
    intro i j hij
    simp only [List.get_eq_getElem, List.getElem_zip]
    intro x y hx hy
    have hzlen : ((qbinscOf l).zip Imean).length ≤ (qbinscOf l).length := by
      rw [List.length_zip]
      omega
    have hi1 : (i : ℕ) < (qbinscOf l).length := lt_of_lt_of_le i.isLt hzlen
    have hj1 : (j : ℕ) < (qbinscOf l).length := lt_of_lt_of_le j.isLt hzlen
    have hi2 : (i : ℕ) < (xcountOf l).length := by
      rw [← qbinscOf_length]
      exact hi1
    have hj2 : (j : ℕ) < (xcountOf l).length := by
      rw [← qbinscOf_length]
      exact hj1
    apply qbinsc_mono l hq hnn i j hi2 hj2 hij x y
    · rw [List.getD_eq_getElem?_getD, List.getElem?_eq_getElem hi1]
      simpa using hx
    · rw [List.getD_eq_getElem?_getD, List.getElem?_eq_getElem hj1]
      simpa using hy
  have hfil : List.Pairwise
      (fun p pp : Option α × Option α =>
        ∀ x y : α, p.1 = some x → pp.1 = some y → x ≤ y)
      (List.filter (fun p => oLt p.1 b) ((qbinscOf l).zip Imean)) :=
    List.Pairwise.sublist (List.filter_sublist _) hzip
  refine List.Pairwise.filterMap _ ?_ hfil
  intro p pp hR r hr rr hrr
  cases hp1 : p.1 with
  | none =>
    rw [hp1] at hr
    simp at hr
  | some q =>
    cases hp2 : p.2 with
    | none =>
      rw [hp1, hp2] at hr
      simp at hr
    | some I =>
      rw [hp1, hp2] at hr
      have hr2 : r = (q, I) := by simpa using hr.symm
      cases hpp1 : pp.1 with
      | none =>
        rw [hpp1] at hrr
        simp at hrr
      | some qq =>
        cases hpp2 : pp.2 with
        | none =>
          rw [hpp1, hpp2] at hrr
          simp at hrr
        | some II =>
          rw [hpp1, hpp2] at hrr
          have hrr2 : rr = (qq, II) := by simpa using hrr.symm
          rw [hr2, hrr2]
          exact hR q qq hp1 hpp1

/-! Concrete evaluation of the bin scheme on the rational magnitude list
[0, 1, 1, 1], used to instantiate the hypothesis-bearing claim theorems. -/

set_option maxRecDepth 10000

theorem evL_minPos : minPosMag ([0, 1, 1, 1] : List ℚ) = 1 := by
  norm_num [minPosMag, npMin, List.filter]

theorem evL_qstep : qstepOf ([0, 1, 1, 1] : List ℚ) = 99999999 / 100000000 := by
  rw [qstepOf, evL_minPos]
  norm_num [epsShell]

theorem evL_max : npMax ([0, 1, 1, 1] : List ℚ) = 1 := by
  norm_num [npMax]

theorem evL_nbins : nbinsOf ([0, 1, 1, 1] : List ℚ) = 1 := by
  rw [nbinsOf, pyInt, evL_max, evL_qstep]
  norm_num

theorem evL_qbins : qbinsOf ([0, 1, 1, 1] : List ℚ) = [0, 99999999 / 100000000] := by
  rw [qbinsOf, evL_nbins, evL_qstep, linspace]
  norm_num [List.range_succ]

theorem evL_labels : qbinLabelsOf ([0, 1, 1, 1] : List ℚ) = [0, 1, 1, 1] := by
  simp only [qbinLabelsOf, List.map_cons, List.map_nil, labelOf, searchsortedRight, evL_qbins]
  norm_num [List.countP_cons]

theorem evL_xcount : xcountOf ([0, 1, 1, 1] : List ℚ) = [1, 3] := by
  rw [xcountOf, evL_labels]
  simp only [bincount]
  norm_num [List.range_succ, List.count_cons]

theorem evL_qbinsc : qbinscOf ([0, 1, 1, 1] : List ℚ) = [some 0, some 1] := by
  rw [qbinscOf, evL_labels, evL_xcount, mybinmean]
  norm_num [List.range_succ, binWeightedSum, List.filter, List.zip]

theorem evL_qstep_pos : 0 < qstepOf ([0, 1, 1, 1] : List ℚ) := by
  rw [evL_qstep]
  norm_num

theorem evL_nonneg : ∀ v ∈ ([0, 1, 1, 1] : List ℚ), 0 ≤ v := by
  intro v hv
  simp only [List.mem_cons, List.not_mem_nil, or_false] at hv
  rcases hv with rfl | rfl | rfl | rfl <;> norm_num

theorem evL_trunc :
    truncPairs (qbinscOf ([0, 1, 1, 1] : List ℚ)) [some 5, some 7] (1 / 2) = [(0, 5)] := by
  rw [truncPairs, evL_qbinsc]
  norm_num [List.zip, List.filter, oLt, List.filterMap]

theorem evL_output :
    outputIq (qbinscOf ([0, 1, 1, 1] : List ℚ)) [some 5, some 7] (1 / 2) =
      some [((0 : ℚ), 5, 3 / 20)] := by
  rw [outputIq, evL_trunc]
  norm_num

/-! Claim theorems settled over the generic bin scheme (C1, C2, C3, C6, C10). -/

/-- C1 amended: the shell labelling is left-inclusive, not right-inclusive:
whenever the shell width is positive, a cell of magnitude `v` receives label
`k` exactly when `edge[k] <= v < edge[k+1]` (a magnitude equal to an edge
goes to the higher-indexed shell), and the zero-magnitude (DC/origin) cell
is assigned shell index 0, not -1. -/
theorem c1_label_convention (l : List α) (hq : 0 < qstepOf l) :
    (∀ v ∈ l, 0 ≤ v → ∀ k : ℕ, (k : ℤ) < nbinsOf l →
      (labelOf l v = (k : ℤ) ↔
        (qbinsOf l).getD k 0 ≤ v ∧ v < (qbinsOf l).getD (k + 1) 0)) ∧
    labelOf l 0 = 0 := by
  constructor
  · intro v hv hv0 k hk
    have hKc := nbins_toNat_cast l hq
    have h1 := qbins_getD l hq k (by omega)
    have h2 := qbins_getD l hq (k + 1) (by omega)
    rw [h1, h2, labelOf_eq_iff l hq v hv0 k hk]
    push_cast
    rfl
  · exact labelOf_zero l hq

/-- C1 witness: on the magnitude list [0, 1, 1, 1] (shell width 1 - 1e-8),
the origin cell's label is 0. -/
theorem c1_label_convention_witness :
    labelOf ([0, 1, 1, 1] : List ℚ) 0 = 0 :=
  (c1_label_convention ([0, 1, 1, 1] : List ℚ) evL_qstep_pos).2

/-- C2 amended: every cell (the origin included, which is labelled 0) gets
a label in the closed range [0, K] - the top shell K receives the cells at
the maximum magnitude - and the per-shell counts sum to the total number of
cells, with no cell excluded. -/
theorem c2_labels_partition (l : List α) (hq : 0 < qstepOf l)
    (hnn : ∀ v ∈ l, 0 ≤ v) :
    (∀ lab ∈ qbinLabelsOf l, 0 ≤ lab ∧ lab ≤ nbinsOf l) ∧
    (xcountOf l).sum = l.length := by
  constructor
  · intro lab hlab
    obtain ⟨v, hv, rfl⟩ := List.mem_map.mp hlab
    exact ⟨labelOf_nonneg l hq v (hnn v hv), labelOf_le_nbins l hq v (hnn v hv)⟩
  · unfold xcountOf
    rw [bincount_sum]
    · simp [qbinLabelsOf]
    · intro x hx
      obtain ⟨v, hv, rfl⟩ := List.mem_map.mp hx
      exact labelOf_nonneg l hq v (hnn v hv)

/-- C2 witness: on the magnitude list [0, 1, 1, 1] every label lies in
[0, K] and the counts sum to the number of cells, 4. -/
theorem c2_labels_partition_witness :
    (∀ lab ∈ qbinLabelsOf ([0, 1, 1, 1] : List ℚ),
      0 ≤ lab ∧ lab ≤ nbinsOf ([0, 1, 1, 1] : List ℚ)) ∧
    (xcountOf ([0, 1, 1, 1] : List ℚ)).sum = ([0, 1, 1, 1] : List ℚ).length :=
  c2_labels_partition ([0, 1, 1, 1] : List ℚ) evL_qstep_pos evL_nonneg

/-- C3 amended: provided the minimum strictly-positive magnitude exceeds
ε = 1e-8 (equivalently, the shell width is positive), the bin scheme has
shell width = that minimum minus ε, K = ⌊qmax / width⌋ shells, and K+1
equally spaced edges 0, width, ..., K*width.  (In general the code
truncates qmax/width toward zero, which agrees with the floor only for a
positive width.) -/
theorem c3_bin_scheme (l : List α) (hq : 0 < qstepOf l) :
    qstepOf l = minPosMag l - epsShell ∧
    nbinsOf l = ⌊npMax l / qstepOf l⌋ ∧
    (qbinsOf l).length = (nbinsOf l).toNat + 1 ∧
    ∀ k, k < (qbinsOf l).length → (qbinsOf l).getD k 0 = (k : α) * qstepOf l := by
  refine ⟨rfl, nbins_eq_floor l hq, qbins_length l hq, ?_⟩
  intro k hk
  rw [qbins_length l hq] at hk
  exact qbins_getD l hq k hk

/-- C3 witness: the edge construction evaluated on the magnitude list
[0, 1, 1, 1]. -/
theorem c3_bin_scheme_witness :
    qstepOf ([0, 1, 1, 1] : List ℚ) = minPosMag ([0, 1, 1, 1] : List ℚ) - epsShell ∧
    nbinsOf ([0, 1, 1, 1] : List ℚ) =
      ⌊npMax ([0, 1, 1, 1] : List ℚ) / qstepOf ([0, 1, 1, 1] : List ℚ)⌋ ∧
    (qbinsOf ([0, 1, 1, 1] : List ℚ)).length = (nbinsOf ([0, 1, 1, 1] : List ℚ)).toNat + 1 ∧
    ∀ k, k < (qbinsOf ([0, 1, 1, 1] : List ℚ)).length →
      (qbinsOf ([0, 1, 1, 1] : List ℚ)).getD k 0 = (k : ℚ) * qstepOf ([0, 1, 1, 1] : List ℚ) :=
  c3_bin_scheme ([0, 1, 1, 1] : List ℚ) evL_qstep_pos

/-- C6 amended: the output profile keeps exactly the shells whose
representative frequency is strictly below the new grid's maximum axis
frequency (the bound `b`); rows at the bound are dropped and the original
profile's maximum frequency is never consulted. -/
theorem c6_profile_truncation (l : List α) (Imean : List (Option α)) (b : α) :
    (∀ r ∈ truncPairs (qbinscOf l) Imean b, r.1 < b) ∧
    (∀ k, k < (qbinscOf l).length → k < Imean.length →
      ∀ q I : α, (qbinscOf l).getD k none = some q → Imean.getD k none = some I →
      q < b → (q, I) ∈ truncPairs (qbinscOf l) Imean b) := by
  constructor
  · intro r hr
    unfold truncPairs at hr
    obtain ⟨p, hp, hfp⟩ := List.mem_filterMap.mp hr
    have hmask := (List.mem_filter.mp hp).2
    cases hp1 : p.1 with
    | none =>
      rw [hp1] at hfp
      simp at hfp
    | some q =>
      cases hp2 : p.2 with
      | none =>
        rw [hp1, hp2] at hfp
        simp at hfp
      | some I =>
        rw [hp1, hp2] at hfp
        have hr2 : r = (q, I) := by simpa using hfp.symm
        rw [hp1] at hmask
        unfold oLt at hmask
        rw [hr2]
        simpa using hmask
  · intro k hk1 hk2 q I hq1 hI1 hlt
    unfold truncPairs
    apply List.mem_filterMap.mpr
    refine ⟨(some q, some I), ?_, by simp⟩
    apply List.mem_filter.mpr
    have hzl : k < ((qbinscOf l).zip Imean).length := by
      rw [List.length_zip]
      omega
    rw [List.getD_eq_getElem?_getD, List.getElem?_eq_getElem hk1] at hq1
    rw [List.getD_eq_getElem?_getD, List.getElem?_eq_getElem hk2] at hI1
    constructor
    · have hcell : ((qbinscOf l).zip Imean)[k] = (some q, some I) := by
        rw [List.getElem_zip]
        simp only [Option.getD_some] at hq1 hI1
        rw [hq1, hI1]
      rw [← hcell]
      exact List.getElem_mem hzl
    · unfold oLt
      simpa using hlt

/-- C6 witness: on the magnitude list [0, 1, 1, 1] with intensities
[5, 7] and bound 1/2, the shell at representative frequency 0 < 1/2 is
emitted. -/
theorem c6_profile_truncation_witness :
    ((0 : ℚ), (5 : ℚ)) ∈
      truncPairs (qbinscOf ([0, 1, 1, 1] : List ℚ)) [some 5, some 7] (1 / 2) :=
  (c6_profile_truncation ([0, 1, 1, 1] : List ℚ) [some 5, some 7] (1 / 2)).2 0
    (by rw [evL_qbinsc]; norm_num) (by norm_num) 0 5 (by rw [evL_qbinsc]; rfl) rfl
    (by norm_num)

/-- C10 confirmed: whenever the written profile is nonempty, every row's
uncertainty equals 0.03 times the intensity of the first emitted row, and
the first emitted row has the smallest representative frequency of all
emitted rows. -/
theorem c10_uncertainty_column (l : List α) (Imean : List (Option α)) (b : α)
    (hq : 0 < qstepOf l) (hnn : ∀ v ∈ l, 0 ≤ v)
    (rows : List (α × α × α)) (hout : outputIq (qbinscOf l) Imean b = some rows) :
    ∃ first rest, rows = first :: rest ∧
      (∀ r ∈ rows, r.2.2 = first.2.1 * (3 / 100)) ∧
      (∀ r ∈ rows, first.1 ≤ r.1) := by
  unfold outputIq at hout
  cases htp : truncPairs (qbinscOf l) Imean b with
  | nil =>
    rw [htp] at hout
    cases hout
  | cons p rest0 =>
    rw [htp] at hout
    have hrows : rows = (p :: rest0).map (fun r => (r.1, r.2, p.2 * (3 / 100))) :=
      (Option.some.inj hout).symm
    refine ⟨(p.1, p.2, p.2 * (3 / 100)), rest0.map (fun r => (r.1, r.2, p.2 * (3 / 100))),
      ?_, ?_, ?_⟩
    · rw [hrows]
      simp
    · intro r hr
      rw [hrows] at hr
      obtain ⟨r0, hr0, rfl⟩ := List.mem_map.mp hr
      rfl
    · intro r hr
      rw [hrows] at hr
      obtain ⟨r0, hr0, rfl⟩ := List.mem_map.mp hr
      have hpw := truncPairs_pairwise l Imean b hq hnn
      rw [htp] at hpw
      rcases List.mem_cons.mp hr0 with rfl | hr0
      · exact le_refl _
      · exact List.rel_of_pairwise_cons hpw hr0

/-- C10 witness: on the magnitude list [0, 1, 1, 1] with intensities
[5, 7] and bound 1/2, the written profile is the single row (0, 5, 0.15)
and its uncertainty is 5 * 0.03. -/
theorem c10_uncertainty_column_witness :
    ∃ first rest,
      ([((0 : ℚ), 5, 3 / 20)] : List (ℚ × ℚ × ℚ)) = first :: rest ∧
      (∀ r ∈ ([((0 : ℚ), 5, 3 / 20)] : List (ℚ × ℚ × ℚ)), r.2.2 = first.2.1 * (3 / 100)) ∧
      (∀ r ∈ ([((0 : ℚ), 5, 3 / 20)] : List (ℚ × ℚ × ℚ)), first.1 ≤ r.1) :=
  c10_uncertainty_column ([0, 1, 1, 1] : List ℚ) [some 5, some 7] (1 / 2)
    evL_qstep_pos evL_nonneg [((0 : ℚ), 5, 3 / 20)] evL_output

end BinSchemeLemmas

/-! Claims C4 and C5: the transform floor and the resolution controller. -/

/-- C4 counterexample: for the all-zero density grid with n = 2, the DFT is
identically zero, and the intensity grid that is aggregated into the output
file keeps the exact zero (the floor line exists only in the first,
baseline transform); the claim would require the floored value
(1e-16)² = 1e-32 instead. -/
theorem c4_missing_floor_cex :
    I3DFinal 2 (fun _ _ _ => 0) (0, 0, 0) = 0 ∧
    abs2 (zeroFloorDFT (myfftn 2 (fun _ _ _ => 0)) (0, 0, 0)) = 1 / 10 ^ 32 ∧
    (0 : ℝ) ≠ 1 / 10 ^ 32 := by
  have hF : myfftn 2 (fun _ _ _ => (0 : ℝ)) (0, 0, 0) = 0 := by
    simp [myfftn]
  refine ⟨?_, ?_, by norm_num⟩
  · rw [I3DFinal, hF]
    simp [abs2]
  · rw [zeroFloorDFT, hF]
    simp only [Complex.zero_re, if_true]
    rw [abs2]
    norm_num [Complex.ofReal_re, Complex.ofReal_im]

/-- C4 amended: the zero-real-part floor is applied only in the first
(baseline, plot-only) transform, making every baseline intensity strictly
positive; the second transform, whose aggregation is written to the output
file, applies no floor (it is literally `abs2` of the DFT, and can yield
exact zeros as the counterexample shows). -/
theorem c4_first_transform_floor (n : ℕ) (rho : ℕ → ℕ → ℕ → ℝ) (k : ℕ × ℕ × ℕ) :
    0 < I3DFirst n rho k ∧ I3DFinal n rho k = abs2 (myfftn n rho k) := by
  constructor
  · rw [I3DFirst, zeroFloorDFT]
    by_cases h : (myfftn n rho k).re = 0
    · rw [if_pos h]
      rw [abs2]
      norm_num [Complex.ofReal_re, Complex.ofReal_im]
    · rw [if_neg h]
      rw [abs2]
      have h1 : 0 < (myfftn n rho k).re ^ 2 := by positivity
      have h2 : 0 ≤ (myfftn n rho k).im ^ 2 := sq_nonneg _
      linarith
  · rfl

/-- C5 counterexample: with the current grid at side 3 and voxel size 1
(so N = 3, a reachable state after stride sampling), the request dq' = π
exceeds the current dq = 2π/3, so by the claim the grid should be kept
(side 3); the controller instead outputs N = 4 (new side 4·1 = 4), because
the clamped value is re-run through the side/N computation and the odd N
is bumped to even. -/
theorem c5_clamp_cex :
    2 * Real.pi / 3 < Real.pi ∧
    resControllerDq 3 1 Real.pi = (4, true) ∧
    resNewSide 1 4 ≠ 3 := by
  have hpi := Real.pi_pos
  have hlt : 2 * Real.pi / 3 < Real.pi := by
    rw [div_lt_iff₀ (by norm_num : (0 : ℝ) < 3)]
    linarith
  refine ⟨hlt, ?_, ?_⟩
  · have hpne := Real.pi_ne_zero
    have hss : 2 * Real.pi / (2 * Real.pi / 3) = 3 := by
      field_simp
    have hpy : pyInt ((3 : ℝ) / 1) = 3 := by
      have h31 : (3 : ℝ) / 1 = ((3 : ℤ) : ℝ) := by norm_num
      rw [h31, pyInt, if_neg (not_lt.mpr (by norm_num)), Int.floor_intCast]
    simp only [resControllerDq, if_pos hlt, hss, hpy]
    norm_num [decide_eq_true hlt]
  · rw [resNewSide]
    norm_num

/-- C5 amended: when the requested spacing dq' is at least the current
dq = 2π/side, the controller clamps the working value to the current dq
(printing the warning exactly when dq' is strictly greater) and then runs
the same side/N computation on the clamped value; for an even current N
with side = voxel·N this reproduces the current grid exactly (for an odd N
it would bump N to N+1, as the counterexample shows). -/
theorem c5_clamp_keeps_even_grid (side voxel dqArg : ℝ) (n : ℤ)
    (hside : side = voxel * (n : ℝ)) (hv : 0 < voxel) (hn : 0 < n) (heven : n % 2 = 0)
    (hge : 2 * Real.pi / side ≤ dqArg) :
    resControllerDq side voxel dqArg = (n, decide (2 * Real.pi / side < dqArg)) ∧
    resNewSide voxel n = side := by
  have hnR : (0 : ℝ) < (n : ℝ) := by exact_mod_cast hn
  have hsidepos : 0 < side := by
    rw [hside]
    exact mul_pos hv hnR
  have hdq : (if 2 * Real.pi / side < dqArg then 2 * Real.pi / side else dqArg)
      = 2 * Real.pi / side := by
    by_cases h : 2 * Real.pi / side < dqArg
    · rw [if_pos h]
    · rw [if_neg h]
      exact le_antisymm (not_lt.mp h) hge
  constructor
  · have hpne := Real.pi_ne_zero
    have hsne : side ≠ 0 := ne_of_gt hsidepos
    have hvne : voxel ≠ 0 := ne_of_gt hv
    have hss : 2 * Real.pi / (2 * Real.pi / side) = side := by
      field_simp
    have hnv : side / voxel = ((n : ℤ) : ℝ) := by
      rw [hside, mul_comm, mul_div_assoc, div_self hvne, mul_one]
    have hpy : pyInt ((n : ℤ) : ℝ) = n := by
      rw [pyInt, if_neg (not_lt.mpr (by exact_mod_cast hn.le)), Int.floor_intCast]
    simp only [resControllerDq, hdq, hss, hnv, hpy]
    rw [if_neg (by omega : ¬n % 2 = 1)]
  · rw [resNewSide, hside]

/-- C5 witness: current grid side 4, voxel 1, N = 4 (even), requested
dq' = π ≥ current dq = π/2; the controller returns N = 4 and the grid is
kept. -/
theorem c5_clamp_keeps_even_grid_witness :
    resControllerDq 4 1 Real.pi = (4, decide (2 * Real.pi / 4 < Real.pi)) ∧
    resNewSide 1 4 = 4 :=
  c5_clamp_keeps_even_grid 4 1 Real.pi 4 (by norm_num) (by norm_num) (by norm_num)
    (by norm_num)
    (by rw [div_le_iff₀ (by norm_num : (0 : ℝ) < 4)]; nlinarith [Real.pi_pos])

/-! Concrete evaluation of the pipeline on the real n = 2 frequency grids,
and the counterexamples for claims C1, C2, C3 and C6. -/


theorem ev2_cells : cells 2 =
    [(0,0,0),(0,0,1),(0,1,0),(0,1,1),(1,0,0),(1,0,1),(1,1,0),(1,1,1)] := by decide

theorem ev2_qx0 : qxAxis 2 (2 * Real.pi) 0 = 0 := by
  norm_num [qxAxis, fftfreqNum]

theorem ev2_qx1 : qxAxis 2 (2 * Real.pi) 1 = -1 := by
  have hpne := Real.pi_ne_zero
  rw [qxAxis, fftfreqNum]
  norm_num
  field_simp

theorem ev2_qr : qrListR 2 (2 * Real.pi) = grid2vals := by
  rw [qrListR, ev2_cells, grid2vals]
  simp only [List.map_cons, List.map_nil, ev2_qx0, ev2_qx1]
  norm_num

theorem sq2_ge_one : (1 : ℝ) ≤ Real.sqrt 2 := by
  rw [show (1:ℝ) = Real.sqrt 1 by rw [Real.sqrt_one]]
  exact Real.sqrt_le_sqrt (by norm_num)

theorem sq3_ge_one : (1 : ℝ) ≤ Real.sqrt 3 := by
  rw [show (1:ℝ) = Real.sqrt 1 by rw [Real.sqrt_one]]
  exact Real.sqrt_le_sqrt (by norm_num)

theorem sq2_le_sq3 : Real.sqrt 2 ≤ Real.sqrt 3 := Real.sqrt_le_sqrt (by norm_num)

theorem sq3_lt : Real.sqrt 3 < 174 / 100 :=
  (Real.sqrt_lt' (by norm_num)).mpr (by norm_num)

theorem ev2_minPos : minPosMag grid2vals = 1 := by
  have h2 : (0:ℝ) < Real.sqrt 2 := Real.sqrt_pos.mpr (by norm_num)
  have h3 : (0:ℝ) < Real.sqrt 3 := Real.sqrt_pos.mpr (by norm_num)
  have m12 : min (1:ℝ) (Real.sqrt 2) = 1 := min_eq_left sq2_ge_one
  have m13 : min (1:ℝ) (Real.sqrt 3) = 1 := min_eq_left sq3_ge_one
  rw [grid2vals, minPosMag]
  norm_num [List.filter, h2, h3, npMin, min_self, m12, m13]

theorem ev2_qstep : qstepOf grid2vals = 99999999 / 100000000 := by
  rw [qstepOf, ev2_minPos, epsShell]
  norm_num

theorem ev2_max : npMax grid2vals = Real.sqrt 3 := by
  have m1 : max (0:ℝ) 1 = 1 := max_eq_right (by norm_num)
  have m2 : max (1:ℝ) (Real.sqrt 2) = Real.sqrt 2 := max_eq_right sq2_ge_one
  have m3 : max (Real.sqrt 2) 1 = Real.sqrt 2 := max_eq_left sq2_ge_one
  have m4 : max (Real.sqrt 2) (Real.sqrt 3) = Real.sqrt 3 := max_eq_right sq2_le_sq3
  rw [grid2vals, npMax]
  norm_num [List.foldl, m1, m2, m3, m4, max_self]

theorem ev2_nbins : nbinsOf grid2vals = 1 := by
  rw [nbinsOf, pyInt, ev2_max, ev2_qstep]
  have hq0 : (0:ℝ) < 99999999 / 100000000 := by norm_num
  rw [if_neg (not_lt.mpr (by positivity))]
  apply Int.floor_eq_iff.mpr
  constructor
  · push_cast
    rw [le_div_iff₀ hq0]
    nlinarith [sq3_ge_one]
  · push_cast
    rw [div_lt_iff₀ hq0]
    nlinarith [sq3_lt]

theorem ev2_qbins : qbinsOf grid2vals = [0, 99999999 / 100000000] := by
  rw [qbinsOf, ev2_nbins, ev2_qstep, linspace]
  norm_num [List.range_succ]

theorem ev2_labels : qbinLabelsOf grid2vals = [0, 1, 1, 1, 1, 1, 1, 1] := by
  have hs2 : (99999999 / 100000000 : ℝ) ≤ Real.sqrt 2 := le_trans (by norm_num) sq2_ge_one
  have hs3 : (99999999 / 100000000 : ℝ) ≤ Real.sqrt 3 := le_trans (by norm_num) sq3_ge_one
  have hn2 : (0:ℝ) ≤ Real.sqrt 2 := Real.sqrt_nonneg 2
  have hn3 : (0:ℝ) ≤ Real.sqrt 3 := Real.sqrt_nonneg 3
  rw [grid2vals]
  simp only [qbinLabelsOf, List.map_cons, List.map_nil, labelOf, searchsortedRight]
  rw [show qbinsOf [0, 1, 1, Real.sqrt 2, 1, Real.sqrt 2, Real.sqrt 2, Real.sqrt 3]
      = [0, 99999999 / 100000000] from by rw [← grid2vals, ev2_qbins]]
  norm_num [List.countP_cons, hs2, hs3, hn2, hn3]

theorem ev2_xcount : xcountOf grid2vals = [1, 7] := by
  rw [xcountOf, ev2_labels]
  simp only [bincount]
  norm_num [List.range_succ, List.count_cons]

theorem ev2_qbinsc : qbinscOf grid2vals =
    [some 0, some ((3 + 3 * Real.sqrt 2 + Real.sqrt 3) / 7)] := by
  rw [qbinscOf, ev2_labels, ev2_xcount, mybinmean]
  rw [grid2vals]
  norm_num [List.range_succ, binWeightedSum, List.zip, List.filter]
  ring_nf

theorem ev2_qxlist : qxList 2 (2 * Real.pi) = [0, -1] := by
  rw [qxList]
  norm_num [List.range_succ, ev2_qx0, ev2_qx1]

theorem ev2_qmaxToUse : qmaxToUse 2 (2 * Real.pi) = 0 := by
  rw [qmaxToUse, ev2_qxlist, npMax]
  norm_num [List.foldl]

theorem c6_qualifying_shell_dropped_cex :
    ¬ c6ClaimAt (qrListR 2 (2 * Real.pi)) (qmaxToUse 2 (2 * Real.pi))
      ((3 + 3 * Real.sqrt 2 + Real.sqrt 3) / 7) := by
  intro hclaim
  have hM : (0:ℝ) ≤ (3 + 3 * Real.sqrt 2 + Real.sqrt 3) / 7 := by positivity
  have hlen : 0 < (qbinscOf (qrListR 2 (2 * Real.pi))).length := by
    rw [ev2_qr, ev2_qbinsc]
    norm_num
  have hget : (qbinscOf (qrListR 2 (2 * Real.pi))).getD 0 none = some 0 := by
    rw [ev2_qr, ev2_qbinsc]
    rfl
  have h0 := (hclaim 0 hlen 0 hget).mpr
    (by rw [ev2_qmaxToUse]; exact le_min (le_refl 0) hM)
  rw [ev2_qr, ev2_qbinsc, ev2_qmaxToUse] at h0
  have hMneg : ¬((3 + 3 * Real.sqrt 2 + Real.sqrt 3) / 7 < (0:ℝ)) := not_lt.mpr hM
  simp [truncQbinsc, oLt, List.filter, hMneg] at h0

theorem sqrt_ev (x y : ℝ) (hy : 0 ≤ y) (hxy : x = y ^ 2) : Real.sqrt x = y := by
  rw [hxy]
  exact Real.sqrt_sq hy

theorem ev2h_qx0 : qxAxis 2 (2000000000 * Real.pi) 0 = 0 := by
  norm_num [qxAxis, fftfreqNum]

theorem ev2h_qx1 : qxAxis 2 (2000000000 * Real.pi) 1 = -(1 / 1000000000) := by
  have hpne := Real.pi_ne_zero
  rw [qxAxis, fftfreqNum]
  norm_num
  rw [div_eq_iff (by positivity)]
  ring

theorem ev2h_qr : qrListR 2 (2000000000 * Real.pi) =
    [0, 1 / 1000000000, 1 / 1000000000, Real.sqrt 2 / 1000000000, 1 / 1000000000,
      Real.sqrt 2 / 1000000000, Real.sqrt 2 / 1000000000, Real.sqrt 3 / 1000000000] := by
  rw [qrListR, ev2_cells]
  simp only [List.map_cons, List.map_nil, List.cons.injEq, and_true]
  refine ⟨?_, ?_, ?_, ?_, ?_, ?_, ?_, ?_⟩
  · rw [ev2h_qx0]
    exact sqrt_ev _ _ le_rfl (by norm_num)
  · rw [ev2h_qx0, ev2h_qx1]
    exact sqrt_ev _ _ (by norm_num) (by norm_num)
  · rw [ev2h_qx0, ev2h_qx1]
    exact sqrt_ev _ _ (by norm_num) (by norm_num)
  · rw [ev2h_qx0, ev2h_qx1]
    refine sqrt_ev _ _ (by positivity) ?_
    rw [div_pow, Real.sq_sqrt (by norm_num : (0:ℝ) ≤ 2)]
    norm_num
  · rw [ev2h_qx0, ev2h_qx1]
    exact sqrt_ev _ _ (by norm_num) (by norm_num)
  · rw [ev2h_qx0, ev2h_qx1]
    refine sqrt_ev _ _ (by positivity) ?_
    rw [div_pow, Real.sq_sqrt (by norm_num : (0:ℝ) ≤ 2)]
    norm_num
  · rw [ev2h_qx0, ev2h_qx1]
    refine sqrt_ev _ _ (by positivity) ?_
    rw [div_pow, Real.sq_sqrt (by norm_num : (0:ℝ) ≤ 2)]
    norm_num
  · rw [ev2h_qx1]
    refine sqrt_ev _ _ (by positivity) ?_
    rw [div_pow, Real.sq_sqrt (by norm_num : (0:ℝ) ≤ 3)]
    norm_num

theorem s2e_pos : (0:ℝ) < Real.sqrt 2 / 1000000000 := by positivity

theorem s3e_pos : (0:ℝ) < Real.sqrt 3 / 1000000000 := by positivity

theorem s1_le_s2e : (1:ℝ) / 1000000000 ≤ Real.sqrt 2 / 1000000000 := by
  gcongr
  exact sq2_ge_one

theorem s1_le_s3e : (1:ℝ) / 1000000000 ≤ Real.sqrt 3 / 1000000000 := by
  gcongr
  exact sq3_ge_one

theorem s2e_le_s3e : Real.sqrt 2 / 1000000000 ≤ Real.sqrt 3 / 1000000000 := by
  gcongr
  norm_num

theorem ev2h_minPos :
    minPosMag (qrListR 2 (2000000000 * Real.pi)) = 1 / 1000000000 := by
  have m1 : min ((1:ℝ) / 1000000000) (Real.sqrt 2 / 1000000000) = 1 / 1000000000 :=
    min_eq_left s1_le_s2e
  have m2 : min ((1:ℝ) / 1000000000) (Real.sqrt 3 / 1000000000) = 1 / 1000000000 :=
    min_eq_left s1_le_s3e
  rw [ev2h_qr, minPosMag]
  norm_num [List.filter, s2e_pos, s3e_pos, npMin, min_self, m1, m2]

theorem ev2h_max :
    npMax (qrListR 2 (2000000000 * Real.pi)) = Real.sqrt 3 / 1000000000 := by
  have m1 : max (0:ℝ) (1 / 1000000000) = 1 / 1000000000 := max_eq_right (by norm_num)
  have m2 : max ((1:ℝ) / 1000000000) (Real.sqrt 2 / 1000000000)
      = Real.sqrt 2 / 1000000000 := max_eq_right s1_le_s2e
  have m3 : max (Real.sqrt 2 / 1000000000) ((1:ℝ) / 1000000000)
      = Real.sqrt 2 / 1000000000 := max_eq_left s1_le_s2e
  have m4 : max (Real.sqrt 2 / 1000000000) (Real.sqrt 3 / 1000000000)
      = Real.sqrt 3 / 1000000000 := max_eq_right s2e_le_s3e
  rw [ev2h_qr, npMax]
  norm_num [List.foldl, m1, m2, m3, m4, max_self]

theorem ev2h_qstep :
    qstepOf (qrListR 2 (2000000000 * Real.pi)) = -(9 / 1000000000) := by
  rw [qstepOf, ev2h_minPos, epsShell]
  norm_num

theorem s3e_lt : Real.sqrt 3 / 1000000000 < 9 / 1000000000 := by
  gcongr
  nlinarith [sq3_lt]

theorem c3_trunc_vs_floor_cex :
    nbinsOf (qrListR 2 (2000000000 * Real.pi)) = 0 ∧
    ⌊npMax (qrListR 2 (2000000000 * Real.pi)) /
        qstepOf (qrListR 2 (2000000000 * Real.pi))⌋ = -1 ∧
    (0 : ℤ) ≠ -1 := by
  have hratio : npMax (qrListR 2 (2000000000 * Real.pi)) /
      qstepOf (qrListR 2 (2000000000 * Real.pi))
      = -(Real.sqrt 3 / 1000000000 / (9 / 1000000000)) := by
    rw [ev2h_max, ev2h_qstep, div_neg]
  have hpos : (0:ℝ) < Real.sqrt 3 / 1000000000 / (9 / 1000000000) :=
    div_pos s3e_pos (by norm_num)
  have hlt1 : Real.sqrt 3 / 1000000000 / (9 / 1000000000) < 1 :=
    (div_lt_one (by norm_num)).mpr s3e_lt
  refine ⟨?_, ?_, by decide⟩
  · rw [nbinsOf, pyInt, hratio, if_pos (by linarith)]
    apply Int.ceil_eq_iff.mpr
    constructor
    · push_cast
      linarith
    · push_cast
      linarith
  · rw [hratio]
    apply Int.floor_eq_iff.mpr
    constructor
    · push_cast
      linarith
    · push_cast
      linarith


/-- C1 counterexample: on the n = 2, side = 2π density grid, the
zero-magnitude (DC/origin) cell — the first cell in ravel order — is
assigned shell index 0, not the claimed -1: `np.searchsorted(..., "right")`
places a value equal to an edge after the edge, so magnitude 0 = edge[0]
lands in shell 0. -/
theorem c1_origin_label_cex :
    (qbinLabelsOf (qrListR 2 (2 * Real.pi))).getD 0 99 = 0 ∧ (0 : ℤ) ≠ -1 := by
  constructor
  · rw [ev2_qr, ev2_labels]
    rfl
  · decide

/-- C2 counterexample: on the n = 2, side = 2π grid (N³ = 8 cells, one of
exactly zero magnitude), the shell counts sum to 8, not the claimed
8 - 1 = 7 (the origin is binned into shell 0 and counted), and the
maximum-magnitude cell (ravel index 7) carries label 1 = K, which lies
outside the claimed half-open range [0, K). -/
theorem c2_counts_cex :
    (xcountOf (qrListR 2 (2 * Real.pi))).sum = 8 ∧
    nbinsOf (qrListR 2 (2 * Real.pi)) = 1 ∧
    (qbinLabelsOf (qrListR 2 (2 * Real.pi))).getD 7 99 = 1 ∧
    (8 : ℕ) ≠ 2 ^ 3 - 1 := by
  refine ⟨?_, ?_, ?_, by norm_num⟩
  · rw [ev2_qr, ev2_xcount]
    rfl
  · rw [ev2_qr]
    exact ev2_nbins
  · rw [ev2_qr, ev2_labels]
    rfl

end Denss
